import Mathlib

/-!
Verification of the diff-filtering, commit-summary, validation and
configuration logic of the automated-PR-description action.

Strings from the JavaScript source are modelled as `List Char` where index
arithmetic matters (the diff filter) and as `String` elsewhere.  External
collaborators are modelled by their observable results: a host-API call
becomes an `Except String α` argument (`.error e` carries the text `${error}`
of the thrown value), and the external `minimatch` glob matcher becomes a
function argument `m : List Char → String → Bool`.
-/

namespace PRDesc

/-- Characters treated as whitespace by JavaScript `String.prototype.trim`
(restricted to the ASCII range, which is what diff content uses). -/
def isJsWS (c : Char) : Bool :=
  c = ' ' || c = '\t' || c = '\n' || c = '\r' || c = '\x0b' || c = '\x0c'

/-- A section survives the `.filter((section) => section.trim())` step exactly
when it contains a non-whitespace character. -/
def nonblank (s : List Char) : Bool := s.any (fun c => !(isJsWS c))

/-- Index of the first occurrence of `pat` in `s` (JavaScript
`String.prototype.indexOf`), `none` when `pat` never occurs. -/
def firstIdxOf (pat : List Char) : List Char → Option Nat
  | [] => if pat.isPrefixOf ([] : List Char) then some 0 else none
  | c :: rs =>
    if pat.isPrefixOf (c :: rs) then some 0 else (firstIdxOf pat rs).map (· + 1)

/-- Worker for `splitLA`: `cur` is the reversed chunk collected so far (never
empty), `rest` is the unread remainder.  A new chunk starts exactly at every
position where `pat` begins, matching the semantics of splitting on a
zero-width lookahead regex. -/
def splitLAAux (pat : List Char) : List Char → List Char → List (List Char)
  | cur, [] => [cur.reverse]
  | cur, c :: rs =>
    if pat.isPrefixOf (c :: rs) then cur.reverse :: splitLAAux pat [c] rs
    else splitLAAux pat (c :: cur) rs

/-- JavaScript `s.split(/(?=pat)/g)` for a nonempty literal `pat`: the string
is cut immediately before every occurrence of `pat` at a position `> 0`;
the empty string yields `[""]`. -/
def splitLA (pat : List Char) : List Char → List (List Char)
  | [] => [[]]
  | c :: rs => splitLAAux pat [c] rs

/-- The split pattern of `filterDiff`: the regex `/(?=diff --git )/g`. -/
def dgPat : List Char := "diff --git ".toList

/-- The header test of `filterDiff`: `firstLine.startsWith('diff --git a/')`. -/
def dgaHeader : List Char := "diff --git a/".toList

/-- The marker searched for inside a header: `afterA.indexOf(' b/')`. -/
def bMarker : List Char := " b/".toList

/-- JavaScript `section.split('\n')[0]`. -/
def firstLine (sec : List Char) : List Char := sec.takeWhile (fun c => c != '\n')

/-- `diff.split(/(?=diff --git )/g).filter((section) => section.trim())`. -/
def fileSections (diff : List Char) : List (List Char) :=
  (splitLA dgPat diff).filter nonblank

/-- Result of the per-section loop of `filterDiff`: the kept sections in order,
the `core.info` and `core.warning` messages in emission order, and the
`removedFilesCount` counter. -/
structure SectionPassResult where
  kept : List (List Char)
  infos : List String
  warnings : List String
  removedFilesCount : Nat
  deriving DecidableEq

/-- The per-section loop of `filterDiff` (github.ts lines 17-44).  `m` models
the external `minimatch(filePath, pattern)` call. -/
def processSections (m : List Char → String → Bool) (patterns : List String) :
    List (List Char) → SectionPassResult
  | [] => ⟨[], [], [], 0⟩
  | sec :: rest =>
    let r := processSections m patterns rest
    let fl := firstLine sec
    if dgaHeader.isPrefixOf fl then
      let afterA := fl.drop dgaHeader.length
      match firstIdxOf bMarker afterA with
      | some bIndex =>
        if 0 < bIndex then
          let filePath := afterA.take bIndex
          if patterns.any (fun p => m filePath p) then
            ⟨r.kept, ("Ignoring file: " ++ String.mk filePath) :: r.infos,
              r.warnings, r.removedFilesCount + 1⟩
          else
            ⟨sec :: r.kept, r.infos, r.warnings, r.removedFilesCount⟩
        else
          ⟨r.kept, r.infos,
            ("Could not parse diff header: " ++ String.mk fl) :: r.warnings,
            r.removedFilesCount⟩
      | none =>
        ⟨r.kept, r.infos,
          ("Could not parse diff header: " ++ String.mk fl) :: r.warnings,
          r.removedFilesCount⟩
    else
      ⟨sec :: r.kept, r.infos, r.warnings, r.removedFilesCount⟩

/-- The keep/drop decision `processSections` makes for one section, as a
predicate (same branch structure as the loop body). -/
def keepSec (m : List Char → String → Bool) (patterns : List String)
    (sec : List Char) : Bool :=
  let fl := firstLine sec
  if dgaHeader.isPrefixOf fl then
    let afterA := fl.drop dgaHeader.length
    match firstIdxOf bMarker afterA with
    | some bIndex =>
      if 0 < bIndex then !(patterns.any (fun p => m (afterA.take bIndex) p))
      else false
    | none => false
  else true

/-- Result of `filterDiff`: the returned string plus the emitted log lines. -/
structure FilterResult where
  output : List Char
  infos : List String
  warnings : List String
  removedFilesCount : Nat

/-- `filterDiff` from github.ts lines 6-51.  The glob matcher `m` stands for
the external `minimatch` library. -/
def filterDiff (m : List Char → String → Bool) (diff : List Char)
    (ignoredPatterns : List String) : FilterResult :=
  if ignoredPatterns.length = 0 then ⟨diff, [], [], 0⟩
  else
    let r := processSections m ignoredPatterns (fileSections diff)
    ⟨r.kept.flatten,
      r.infos ++
        (if 0 < r.removedFilesCount then
          ["Filtered out " ++ toString r.removedFilesCount ++
            " files from ignored patterns"]
        else []),
      r.warnings, r.removedFilesCount⟩

/-- `minimatch` restricted to patterns without glob metacharacters, where it is
literal path equality; used to instantiate the matcher at concrete inputs. -/
def litMatch (filePath : List Char) (pattern : String) : Bool :=
  filePath == pattern.toList

/-- Follows the spec's words, for comparison with the code's `splitLA`:
sections begin only at a LINE starting with the header pattern, and text
before the first header line forms its own leading section.  `lineStart`
records whether the current position begins a line. -/
def splitHLAux (pat : List Char) : List Char → Bool → List Char → List (List Char)
  | cur, _, [] => [cur.reverse]
  | cur, lineStart, c :: rs =>
    if lineStart && !cur.isEmpty && pat.isPrefixOf (c :: rs) then
      cur.reverse :: splitHLAux pat [c] false rs
    else
      splitHLAux pat (c :: cur) (c == '\n') rs

/-- Follows the spec's words: split at each occurrence of a line starting with
`pat` (a lookahead split keeping the header with its section). -/
def splitAtHeaderLineStarts (pat : List Char) (s : List Char) : List (List Char) :=
  splitHLAux pat [] true s

/-- The text preceding the first occurrence of `pat` in `s` (all of `s` when
`pat` does not occur). -/
def leadText (pat : List Char) (s : List Char) : List Char :=
  match firstIdxOf pat s with
  | none => s
  | some i => s.take i

/-- `pat` never overlaps itself: no shift of `pat` by `0 < k < pat.length`
matches `pat` again.  Concatenating sections that each begin with such a `pat`
can therefore never create a new occurrence across a boundary. -/
def noSelfOverlap (pat : List Char) : Prop :=
  ∀ k, 0 < k → k < pat.length → ¬ pat.drop k <+: pat

/-- One element of the commit list returned by `pulls.listCommits`
(`{ sha, commit: { message } }`). -/
structure CommitData where
  message : String
  deriving DecidableEq

structure Commit where
  sha : String
  commit : CommitData
  deriving DecidableEq

/-- JavaScript `s.substring(start, finish)` for `start ≤ finish`. -/
def jsSubstring (s : String) (start finish : Nat) : String :=
  String.mk ((s.toList.drop start).take (finish - start))

/-- JavaScript `s.split(sep)[0]`. -/
def jsSplitHead (sep : Char) (s : String) : String :=
  String.mk (s.toList.takeWhile (fun c => c != sep))

/-- The formatting pipeline of `getCommitMessages` (github.ts lines 94-99). -/
def formatCommitMessages (commits : List Commit) : String :=
  String.intercalate "\n"
    (commits.map (fun c =>
      jsSubstring c.sha 0 7 ++ " " ++ jsSplitHead '\n' c.commit.message))

/-- `generateDiff` (github.ts lines 53-80) with the host-API call modelled by
its result; the catch block wraps the thrown error's text. -/
def generateDiff (m : List Char → String → Bool)
    (apiResult : Except String String) (ignoredPatterns : List String) :
    Except String String :=
  match apiResult with
  | .ok rawDiff => .ok (String.mk (filterDiff m rawDiff.toList ignoredPatterns).output)
  | .error e => .error ("Failed to generate diff: " ++ e)

/-- `getCommitMessages` (github.ts lines 82-107) with the host-API call
modelled by its result. -/
def getCommitMessages (apiResult : Except String (List Commit)) :
    Except String String :=
  match apiResult with
  | .ok commits => .ok (formatCommitMessages commits)
  | .error e => .error ("Failed to get commit messages: " ++ e)

/-- `updatePRDescription` (github.ts lines 112-130) with the host-API call
modelled by its result. -/
def updatePRDescription (apiResult : Except String Unit) : Except String Unit :=
  match apiResult with
  | .ok u => .ok u
  | .error e => .error ("Failed to update PR description: " ++ e)

/-- JavaScript truthiness of a `string | null | undefined` value
(`none` models absent or null). -/
def truthy : Option String → Bool
  | none => false
  | some s => s != ""

/-- Outcome of `validatePullRequestAction`: either fall through, or call
`process.exit` with the given code after logging `logMsg`.  The function
never throws, so there is no error constructor. -/
inductive ActionOutcome where
  | proceed
  | exit (code : Nat) (logMsg : String)
  deriving DecidableEq

def allowedActions : List String := ["opened", "synchronize", "reopened"]

/-- `validatePullRequestAction` (validation.ts lines 11-17); `action` is
`context.payload.action`. -/
def validatePullRequestAction (action : Option String) : ActionOutcome :=
  if !(truthy action) || !(allowedActions.contains (action.getD "")) then
    .exit 0 ("Skipping action for PR action: " ++
      (if truthy action then action.getD "" else "unknown"))
  else
    .proceed

structure PRUser where
  login : Option String

structure PRRef where
  sha : Option String

/-- The `pull_request` object of the event payload; every field the source
tests for truthiness is optional. -/
structure PullRequestPayload where
  number : Int
  title : Option String
  user : Option PRUser
  base : Option PRRef
  head : Option PRRef
  html_url : Option String

structure PRInfo where
  number : Int
  title : String
  author : String
  baseSha : String
  headSha : String
  url : String
  deriving DecidableEq

def requiredFieldsMsg : String :=
  "Required PR fields are missing (title, author, base SHA, head SHA, or URL)"

/-- `extractPRInfo` (validation.ts lines 19-45); the argument is
`context.payload.pull_request` (`none` models absent or null). -/
def extractPRInfo (pull_request : Option PullRequestPayload) :
    Except String PRInfo :=
  match pull_request with
  | none => .error "No pull request found in context"
  | some pr =>
    if !(truthy pr.title) || !(truthy (pr.user.bind PRUser.login))
        || !(truthy (pr.base.bind PRRef.sha)) || !(truthy (pr.head.bind PRRef.sha))
        || !(truthy pr.html_url) then
      .error requiredFieldsMsg
    else
      .ok ⟨pr.number, pr.title.getD "", (pr.user.bind PRUser.login).getD "",
        (pr.base.bind PRRef.sha).getD "", (pr.head.bind PRRef.sha).getD "",
        pr.html_url.getD ""⟩

structure ApiKeys where
  anthropicApiKey : String
  githubToken : String
  deriving DecidableEq

def anthropicMissingMsg : String :=
  "Anthropic API key not found. Please set the anthropic-api-key input or ANTHROPIC_API_KEY environment variable."

def githubMissingMsg : String :=
  "GitHub token not found. Please set the github-token input or GITHUB_TOKEN environment variable."

/-- JavaScript `input || env` where `input` is the string returned by
`core.getInput` (empty when unset) and `env` is a `string | undefined`
environment variable. -/
def jsOrEnv (input : String) (env : Option String) : Option String :=
  if input != "" then some input else env

/-- `getApiKeys` (validation.ts lines 47-68): the credential-resolution variant
with environment-variable fallback.  `envAnthropic` / `envGithub` model
`process.env.ANTHROPIC_API_KEY` / `process.env.GITHUB_TOKEN`. -/
def getApiKeys (anthropicInput githubInput : String)
    (envAnthropic envGithub : Option String) : Except String ApiKeys :=
  let anthropicApiKey := jsOrEnv anthropicInput envAnthropic
  let githubToken := jsOrEnv githubInput envGithub
  if !(truthy anthropicApiKey) then .error anthropicMissingMsg
  else if !(truthy githubToken) then .error githubMissingMsg
  else .ok ⟨anthropicApiKey.getD "", githubToken.getD ""⟩

structure Config where
  anthropicApiKey : String
  githubToken : String
  ignoredPatterns : List String
  deriving DecidableEq

/-- `getConfig` (the validation variant imported by main.ts, lines 47-78):
reads both credentials from the explicit inputs only.  The two environment
parameters model the ambient process environment; the source body never reads
them (it calls only `core.getInput`), which the unused binders make explicit.
The `core.info` log of a non-empty pattern list is not modelled. -/
def getConfig (anthropicInput githubInput ignorePatternsInput : String)
    (_envAnthropic _envGithub : Option String) : Except String Config :=
  if anthropicInput == "" then .error anthropicMissingMsg
  else if githubInput == "" then .error githubMissingMsg
  else
    .ok ⟨anthropicInput, githubInput,
      ((ignorePatternsInput.split (fun c => c = ',')).map String.trim).filter
        (fun p => p.length > 0)⟩

end PRDesc

namespace PRDesc

lemma dgPat_nso_bounded :
    ∀ k ∈ List.range dgPat.length, k = 0 ∨ ¬ dgPat.drop k <+: dgPat := by
  decide

lemma dgPat_nso : noSelfOverlap dgPat := by
  intro k hk hlt
  rcases dgPat_nso_bounded k (List.mem_range.mpr hlt) with h | h
  · omega
  · exact h

lemma dgPat_ne_nil : dgPat ≠ [] := by decide

lemma splitLAAux_flatten (pat : List Char) :
    ∀ (rest cur : List Char),
      (splitLAAux pat cur rest).flatten = cur.reverse ++ rest := by
  intro rest
  induction rest with
  | nil => intro cur; simp [splitLAAux]
  | cons c rs ih =>
    intro cur
    by_cases h : pat.isPrefixOf (c :: rs) = true
    · simp [splitLAAux, h, ih]
    · simp [splitLAAux, h, ih]

lemma splitLA_flatten (pat : List Char) (s : List Char) :
    (splitLA pat s).flatten = s := by
  cases s with
  | nil => simp [splitLA]
  | cons c rs => simp [splitLA, splitLAAux_flatten]

lemma prefix_append_of_le {p a b : List Char} (h : p <+: a ++ b)
    (hle : p.length ≤ a.length) : p <+: a := by
  have e : p = (a ++ b).take p.length := List.prefix_iff_eq_take.mp h
  rw [List.take_append_of_le_length hle] at e
  rw [e]
  exact List.take_prefix _ _

lemma shift_of_double_occurrence {pat x : List Char} {k : Nat} (h0 : pat <+: x)
    (hk : pat <+: x.drop k) (hlt : k < pat.length) : pat.drop k <+: pat := by
  have e0 : pat = x.take pat.length := List.prefix_iff_eq_take.mp h0
  have e1 : pat = (x.drop k).take pat.length := List.prefix_iff_eq_take.mp hk
  have e2 : pat.drop k = (x.drop k).take (pat.length - k) := by
    conv_lhs => rw [e0]
    rw [List.drop_take]
  have e3 : ((x.drop k).take pat.length).take (pat.length - k) =
      (x.drop k).take (pat.length - k) := by
    rw [List.take_take]
    congr 1
    omega
  rw [e2, ← e3, ← e1]
  exact List.take_prefix _ _

lemma cross_occurrence_shift {pat a s : List Char} (h : pat <+: a ++ s) :
    pat.drop a.length <+: s := by
  have e : pat = (a ++ s).take pat.length := List.prefix_iff_eq_take.mp h
  have e2 : pat.drop a.length = s.take (pat.length - a.length) := by
    conv_lhs => rw [e]
    rw [List.drop_take]
    congr 1
    exact List.drop_left a s
  rw [e2]
  exact List.take_prefix _ _

lemma firstIdxOf_spec (pat : List Char) :
    ∀ (s : List Char) (i : Nat), firstIdxOf pat s = some i →
      pat <+: s.drop i ∧ ∀ j, j < i → ¬ pat <+: s.drop j := by
  intro s
  induction s with
  | nil =>
    intro i h
    simp only [firstIdxOf] at h
    split at h
    · rename_i hcond
      cases h
      refine ⟨?_, fun j hj => absurd hj (by omega)⟩
      simpa using List.isPrefixOf_iff_prefix.mp hcond
    · cases h
  | cons c rs ih =>
    intro i h
    simp only [firstIdxOf] at h
    split at h
    · rename_i hcond
      cases h
      refine ⟨?_, fun j hj => absurd hj (by omega)⟩
      simpa using List.isPrefixOf_iff_prefix.mp hcond
    · rename_i hcond
      cases hfi : firstIdxOf pat rs with
      | none => rw [hfi] at h; simp at h
      | some i' =>
        rw [hfi] at h
        simp only [Option.map_some'] at h
        cases h
        obtain ⟨h1, h2⟩ := ih i' hfi
        refine ⟨h1, ?_⟩
        intro j hj
        cases j with
        | zero =>
          intro hcon
          exact hcond (List.isPrefixOf_iff_prefix.mpr (by simpa using hcon))
        | succ j' => exact h2 j' (by omega)

lemma firstIdxOf_none (pat : List Char) :
    ∀ s : List Char, firstIdxOf pat s = none → ∀ j, ¬ pat <+: s.drop j := by
  intro s
  induction s with
  | nil =>
    intro h j
    simp only [firstIdxOf] at h
    split at h
    · cases h
    · rename_i hcond
      intro hcon
      exact hcond (List.isPrefixOf_iff_prefix.mpr (by simpa using hcon))
  | cons c rs ih =>
    intro h j
    simp only [firstIdxOf] at h
    split at h
    · cases h
    · rename_i hcond
      have hfi : firstIdxOf pat rs = none := by
        cases hfi : firstIdxOf pat rs with
        | none => rfl
        | some i' => rw [hfi] at h; simp at h
      cases j with
      | zero =>
        intro hcon
        exact hcond (List.isPrefixOf_iff_prefix.mpr (by simpa using hcon))
      | succ j' => exact ih hfi j'

lemma splitLAAux_no_occ (pat : List Char) :
    ∀ (rest cur : List Char), (∀ i, ¬ pat <+: rest.drop i) →
      splitLAAux pat cur rest = [cur.reverse ++ rest] := by
  intro rest
  induction rest with
  | nil => intro cur _; simp [splitLAAux]
  | cons c rs ih =>
    intro cur h
    have h0 : ¬ (pat.isPrefixOf (c :: rs) = true) := by
      simp only [ List.isPrefixOf_iff_prefix]
      exact h 0
    simp only [splitLAAux, h0, if_false]
    rw [ih (c :: cur) (fun i => h (i + 1))]
    simp

lemma splitLAAux_cut (pat : List Char) (hp : pat ≠ []) :
    ∀ (rest cur s : List Char), pat <+: s →
      (∀ j, j < rest.length → ¬ pat <+: rest.drop j ++ s) →
      splitLAAux pat cur (rest ++ s) = (cur.reverse ++ rest) :: splitLA pat s := by
  intro rest
  induction rest with
  | nil =>
    intro cur s hs _
    cases s with
    | nil => exact absurd (List.prefix_nil.mp hs) hp
    | cons c rs =>
      have hc : pat.isPrefixOf (c :: rs) = true :=
        List.isPrefixOf_iff_prefix.mpr hs
      simp [splitLAAux, hc, splitLA]
  | cons r rest' ih =>
    intro cur s hs hno
    have h0 : ¬ (pat.isPrefixOf (r :: (rest' ++ s)) = true) := by
      simp only [ List.isPrefixOf_iff_prefix]
      exact hno 0 (by simp)
    show splitLAAux pat cur (r :: (rest' ++ s)) = _
    simp only [splitLAAux, h0, if_false]
    rw [ih (r :: cur) s hs (fun j hj => hno (j + 1) (by simp; omega))]
    simp

lemma no_occ_in_chunk_append {pat c s : List Char}
    (hov : noSelfOverlap pat) (hs : pat <+: s)
    (hno : ∀ i, 0 < i → ¬ pat <+: c.drop i) :
    ∀ i, 0 < i → i < c.length → ¬ pat <+: c.drop i ++ s := by
  intro i hi hilen hcon
  by_cases hle : pat.length ≤ (c.drop i).length
  · exact hno i hi (prefix_append_of_le hcon hle)
  · push_neg at hle
    have hk1 : 0 < (c.drop i).length := by
      rw [List.length_drop]; omega
    have hcross : pat.drop (c.drop i).length <+: s := cross_occurrence_shift hcon
    have hdk : pat.drop (c.drop i).length <+: pat :=
      List.prefix_of_prefix_length_le hcross hs
        (by rw [List.length_drop]; omega)
    exact hov (c.drop i).length hk1 hle hdk

lemma splitLA_canonical (pat : List Char) (hp : pat ≠ [])
    (hov : noSelfOverlap pat) :
    ∀ cs : List (List Char), cs ≠ [] → (∀ c ∈ cs, c ≠ []) →
      (∀ c ∈ cs.tail, pat <+: c) →
      (∀ c ∈ cs, ∀ i, 0 < i → ¬ pat <+: c.drop i) →
      splitLA pat cs.flatten = cs := by
  intro cs
  induction cs with
  | nil => intro h; exact absurd rfl h
  | cons c cs' ih =>
    intro _ h1 h2 h3
    cases cs' with
    | nil =>
      simp only [List.flatten_cons, List.flatten_nil, List.append_nil]
      cases c with
      | nil => exact absurd rfl (h1 [] (by simp))
      | cons c0 crest =>
        show splitLAAux pat [c0] crest = [c0 :: crest]
        rw [splitLAAux_no_occ pat crest [c0]
          (fun i => h3 (c0 :: crest) (by simp) (i + 1) (by omega))]
        simp
    | cons c1 cs'' =>
      simp only [List.flatten_cons]
      cases c with
      | nil => exact absurd rfl (h1 [] (by simp))
      | cons c0 crest =>
        have hs : pat <+: (c1 :: cs'').flatten := by
          rw [List.flatten_cons]
          exact (h2 c1 (by simp)).trans (List.prefix_append c1 _)
        have hno : ∀ j, j < crest.length →
            ¬ pat <+: crest.drop j ++ (c1 :: cs'').flatten := by
          intro j hj
          have := no_occ_in_chunk_append hov hs
            (h3 (c0 :: crest) (by simp)) (j + 1) (by omega) (by simp; omega)
          simpa using this
        show splitLAAux pat [c0] (crest ++ (c1 :: cs'').flatten) = _
        rw [splitLAAux_cut pat hp crest [c0] _ hs hno]
        have htl : splitLA pat (c1 :: cs'').flatten = c1 :: cs'' := by
          refine ih (by simp) ?_ ?_ ?_
          · intro x hx
            exact h1 x (List.mem_cons_of_mem _ hx)
          · intro x hx
            exact h2 x (by simpa using List.mem_cons_of_mem c1 hx)
          · intro x hx
            exact h3 x (List.mem_cons_of_mem _ hx)
        rw [htl]
        simp

lemma splitLAAux_all_start (pat : List Char) (hov : noSelfOverlap pat) :
    ∀ (rest cur : List Char), cur ≠ [] → pat <+: cur.reverse ++ rest →
      ∀ sec ∈ splitLAAux pat cur rest, pat <+: sec := by
  intro rest
  induction rest with
  | nil =>
    intro cur _ hpfx sec hsec
    simp only [splitLAAux, List.mem_singleton] at hsec
    subst hsec
    simpa using hpfx
  | cons c rs ih =>
    intro cur hc hpfx sec hsec
    by_cases h : pat.isPrefixOf (c :: rs) = true
    · have hcs : pat <+: c :: rs := List.isPrefixOf_iff_prefix.mp h
      simp only [splitLAAux, h, if_true, List.mem_cons] at hsec
      rcases hsec with rfl | htail
      · by_cases hle : pat.length ≤ cur.reverse.length
        · exact prefix_append_of_le hpfx hle
        · push_neg at hle
          exfalso
          have hk : pat <+: (cur.reverse ++ (c :: rs)).drop cur.reverse.length := by
            rw [List.drop_left]
            exact hcs
          have hsh := shift_of_double_occurrence hpfx hk hle
          exact hov cur.reverse.length (by simpa using List.length_pos.mpr hc)
            hle hsh
      · exact ih [c] (by simp) (by simpa using hcs) sec htail
    · simp only [splitLAAux, h, if_false] at hsec
      refine ih (c :: cur) (by simp) ?_ sec hsec
      simpa [List.append_assoc] using hpfx

lemma splitLAAux_tail_start (pat : List Char) (hov : noSelfOverlap pat) :
    ∀ (rest cur : List Char),
      ∀ sec ∈ (splitLAAux pat cur rest).tail, pat <+: sec := by
  intro rest
  induction rest with
  | nil =>
    intro cur sec hsec
    simp [splitLAAux] at hsec
  | cons c rs ih =>
    intro cur sec hsec
    by_cases h : pat.isPrefixOf (c :: rs) = true
    · have hcs : pat <+: c :: rs := List.isPrefixOf_iff_prefix.mp h
      simp only [splitLAAux, h, if_true, List.tail_cons] at hsec
      exact splitLAAux_all_start pat hov rs [c] (by simp) (by simpa using hcs)
        sec hsec
    · simp only [splitLAAux, h, if_false, Bool.false_eq_true] at hsec
      exact ih (c :: cur) sec hsec

lemma splitLA_tail_start (pat : List Char) (hov : noSelfOverlap pat)
    (s : List Char) : ∀ sec ∈ (splitLA pat s).tail, pat <+: sec := by
  cases s with
  | nil => intro sec hsec; simp [splitLA] at hsec
  | cons c rs => exact splitLAAux_tail_start pat hov rs [c]

lemma seed_inv (pat : List Char) (c : Char) (rest : List Char) :
    ∀ j, 0 < j → j < ([c] : List Char).length →
      ¬ pat <+: (([c] : List Char).reverse ++ rest).drop j := by
  intro j hj hjl
  simp only [List.length_cons, List.length_nil] at hjl
  exact absurd hj (by omega)

lemma splitLAAux_no_internal (pat : List Char) (hp : pat ≠ []) :
    ∀ (rest cur : List Char),
      (∀ j, 0 < j → j < cur.length → ¬ pat <+: (cur.reverse ++ rest).drop j) →
      ∀ sec ∈ splitLAAux pat cur rest, ∀ i, 0 < i → ¬ pat <+: sec.drop i := by
  intro rest
  induction rest with
  | nil =>
    intro cur hinv sec hsec i hi
    simp only [splitLAAux, List.mem_singleton] at hsec
    subst hsec
    by_cases hlt : i < cur.length
    · have := hinv i hi hlt
      simpa using this
    · rw [List.drop_eq_nil_of_le (by simp; omega)]
      intro hcon
      exact hp (List.prefix_nil.mp hcon)
  | cons c rs ih =>
    intro cur hinv sec hsec i hi
    by_cases h : pat.isPrefixOf (c :: rs) = true
    · simp only [splitLAAux, h, if_true, List.mem_cons] at hsec
      rcases hsec with rfl | htail
      · by_cases hlt : i < cur.length
        · intro hcon
          refine hinv i hi hlt ?_
          rw [List.drop_append_of_le_length (by simp; omega)]
          exact hcon.trans (List.prefix_append _ _)
        · rw [List.drop_eq_nil_of_le (by simp; omega)]
          intro hcon
          exact hp (List.prefix_nil.mp hcon)
      · exact ih [c] (seed_inv pat c rs) sec htail i hi
    · simp only [splitLAAux, h, if_false] at hsec
      refine ih (c :: cur) ?_ sec hsec i hi
      intro j hj hjl
      have he : (c :: cur).reverse ++ rs = cur.reverse ++ (c :: rs) := by
        simp [List.append_assoc]
      rw [he]
      rcases Nat.lt_or_ge j cur.length with hjc | hjc
      · exact hinv j hj hjc
      · have hje : j = cur.length := by simp at hjl; omega
        subst hje
        rw [show cur.length = cur.reverse.length from (List.length_reverse cur).symm,
          List.drop_left]
        simpa [ List.isPrefixOf_iff_prefix] using h

lemma splitLA_no_internal (pat : List Char) (hp : pat ≠ []) (s : List Char) :
    ∀ sec ∈ splitLA pat s, ∀ i, 0 < i → ¬ pat <+: sec.drop i := by
  cases s with
  | nil =>
    intro sec hsec i _
    simp only [splitLA, List.mem_singleton] at hsec
    subst hsec
    rw [List.drop_nil]
    intro hcon
    exact hp (List.prefix_nil.mp hcon)
  | cons c rs =>
    exact splitLAAux_no_internal pat hp rs [c] (seed_inv pat c rs)

lemma splitLA_no_occ (pat : List Char) {s : List Char} (hs : s ≠ [])
    (h : ∀ i, 0 < i → ¬ pat <+: s.drop i) : splitLA pat s = [s] := by
  cases s with
  | nil => exact absurd rfl hs
  | cons c rs =>
    show splitLAAux pat [c] rs = [c :: rs]
    rw [splitLAAux_no_occ pat rs [c] (fun i => h (i + 1) (by omega))]
    simp

lemma splitLA_head_cut (pat : List Char) (hp : pat ≠ []) {s : List Char}
    {i : Nat} (hidx : firstIdxOf pat s = some i) (hi : 0 < i) :
    splitLA pat s = s.take i :: splitLA pat (s.drop i) := by
  obtain ⟨hocc, hbefore⟩ := firstIdxOf_spec pat s i hidx
  cases s with
  | nil =>
    exfalso
    rw [List.drop_nil] at hocc
    exact hp (List.prefix_nil.mp hocc)
  | cons c rs =>
    obtain ⟨i', rfl⟩ : ∃ i', i = i' + 1 := ⟨i - 1, by omega⟩
    have hsplit : rs = rs.take i' ++ rs.drop i' := (List.take_append_drop i' rs).symm
    have hno : ∀ j, j < (rs.take i').length →
        ¬ pat <+: (rs.take i').drop j ++ rs.drop i' := by
      intro j hj
      have hjlen : j < i' := by
        have := List.length_take_le i' rs
        omega
      have he : (rs.take i').drop j ++ rs.drop i' = rs.drop j := by
        rw [List.drop_take]
        have : rs.drop i' = (rs.drop j).drop (i' - j) := by
          rw [List.drop_drop]
          congr 1
          omega
        rw [this]
        exact List.take_append_drop _ _
      rw [he]
      exact hbefore (j + 1) (by omega)
    show splitLAAux pat [c] rs = _
    conv_lhs => rw [hsplit]
    rw [splitLAAux_cut pat hp (rs.take i') [c] (rs.drop i') hocc hno]
    simp

lemma processSections_kept (m : List Char → String → Bool) (P : List String) :
    ∀ secs : List (List Char),
      (processSections m P secs).kept = secs.filter (keepSec m P) := by
  intro secs
  induction secs with
  | nil => rfl
  | cons sec rest ih =>
    rw [List.filter_cons]
    by_cases h1 : dgaHeader.isPrefixOf (firstLine sec) = true
    · cases h2 : firstIdxOf bMarker ((firstLine sec).drop dgaHeader.length) with
      | none => simp [processSections, keepSec, h1, h2, ih]
      | some b =>
        by_cases h3 : 0 < b
        · by_cases h4 : P.any
              (fun p => m (((firstLine sec).drop dgaHeader.length).take b) p) = true
          · simp [processSections, keepSec, h1, h2, h3, h4, ih]
          · simp [processSections, keepSec, h1, h2, h3, h4, ih]
        · simp [processSections, keepSec, h1, h2, h3, ih]
    · simp [processSections, keepSec, h1, ih]

lemma processSections_warn_sub (m : List Char → String → Bool) (P : List String)
    (sec' : List Char) (secs : List (List Char)) {w : String}
    (hw : w ∈ (processSections m P secs).warnings) :
    w ∈ (processSections m P (sec' :: secs)).warnings := by
  by_cases h1 : dgaHeader.isPrefixOf (firstLine sec') = true
  · cases h2 : firstIdxOf bMarker ((firstLine sec').drop dgaHeader.length) with
    | none => simp [processSections, h1, h2, hw]
    | some b =>
      by_cases h3 : 0 < b
      · by_cases h4 : P.any
            (fun p => m (((firstLine sec').drop dgaHeader.length).take b) p) = true
        · simp [processSections, h1, h2, h3, h4, hw]
        · simp [processSections, h1, h2, h3, h4, hw]
      · simp [processSections, h1, h2, h3, hw]
  · simp [processSections, h1, hw]

lemma processSections_warn_mem (m : List Char → String → Bool) (P : List String) :
    ∀ (secs : List (List Char)) (sec : List Char), sec ∈ secs →
      dgaHeader.isPrefixOf (firstLine sec) = true →
      firstIdxOf bMarker ((firstLine sec).drop dgaHeader.length) = none →
      ("Could not parse diff header: " ++ String.mk (firstLine sec)) ∈
        (processSections m P secs).warnings := by
  intro secs
  induction secs with
  | nil => intro sec h; simp at h
  | cons s0 rest ih =>
    intro sec hmem hh hn
    rcases List.mem_cons.mp hmem with rfl | hmem'
    · simp [processSections, hh, hn]
    · exact processSections_warn_sub m P s0 rest (ih sec hmem' hh hn)

lemma filterDiff_output (m : List Char → String → Bool) (d : List Char)
    {P : List String} (hP : P ≠ []) :
    (filterDiff m d P).output =
      (processSections m P (fileSections d)).kept.flatten := by
  have hl : ¬ (P.length = 0) := fun h => hP (List.length_eq_zero.mp h)
  simp [filterDiff, hl]

lemma filterDiff_warnings (m : List Char → String → Bool) (d : List Char)
    {P : List String} (hP : P ≠ []) :
    (filterDiff m d P).warnings =
      (processSections m P (fileSections d)).warnings := by
  have hl : ¬ (P.length = 0) := fun h => hP (List.length_eq_zero.mp h)
  simp [filterDiff, hl]

lemma tail_filter_mem {α : Type} (p : α → Bool) (l : List α) (x : α)
    (hx : x ∈ (l.filter p).tail) : x ∈ l.tail := by
  cases l with
  | nil => simp at hx
  | cons a t =>
    rw [List.filter_cons] at hx
    by_cases h : p a = true
    · rw [if_pos h] at hx
      simp only [List.tail_cons] at hx ⊢
      exact (List.mem_filter.mp hx).1
    · rw [if_neg h] at hx
      simp only [List.tail_cons]
      exact (List.mem_filter.mp (List.mem_of_mem_tail hx)).1

lemma dgPat_le_dgaHeader : dgPat <+: dgaHeader := by decide

/-- C3: filtering with an empty pattern list is the identity, byte for byte,
and emits no log records. -/
theorem c3_empty_patterns_identity (m : List Char → String → Bool)
    (d : List Char) : filterDiff m d [] = ⟨d, [], [], 0⟩ := rfl

/-- C9: when the underlying host-API call fails, each of the three adapter
operations fails with its fixed prefix followed by the original error text,
verbatim. -/
theorem c9_error_wrapping (m : List Char → String → Bool) (e : String)
    (ps : List String) :
    generateDiff m (.error e) ps = .error ("Failed to generate diff: " ++ e) ∧
    getCommitMessages (.error e) = .error ("Failed to get commit messages: " ++ e) ∧
    updatePRDescription (.error e) =
      .error ("Failed to update PR description: " ++ e) :=
  ⟨rfl, rfl, rfl⟩

/-- C4: `getCommitMessages` renders each commit, in API order, as the first 7
characters of its sha, a space, and the first line of its message, joined by
newlines; the empty list yields the empty string. -/
theorem c4_commit_messages_format :
    getCommitMessages (.ok []) = .ok "" ∧
    ∀ cs : List Commit,
      getCommitMessages (.ok cs) =
        .ok (String.intercalate "\n" (cs.map (fun c =>
          String.mk (c.sha.toList.take 7) ++ " " ++
            String.mk (c.commit.message.toList.takeWhile (fun ch => ch != '\n'))))) := by
  refine ⟨rfl, fun cs => ?_⟩
  rfl

/-- C6: `validatePullRequestAction` proceeds exactly on the allow-list
`opened`/`synchronize`/`reopened`; every other action value (absent, null, or
any other string) yields a successful exit with code 0 — never a thrown
error — logging the skipped action, with absent/null rendered as `unknown`. -/
theorem c6_action_gate (action : Option String) :
    (validatePullRequestAction action = .proceed ↔
      (action = some "opened" ∨ action = some "synchronize" ∨
        action = some "reopened")) ∧
    (∀ c msg, validatePullRequestAction action = .exit c msg →
      c = 0 ∧ msg = "Skipping action for PR action: " ++
        (if truthy action then action.getD "" else "unknown")) ∧
    validatePullRequestAction none =
      .exit 0 "Skipping action for PR action: unknown" := by
  refine ⟨?_, ?_, rfl⟩
  · cases action with
    | none => simp [validatePullRequestAction, truthy]
    | some s =>
      by_cases h1 : s = "opened"
      · simp [validatePullRequestAction, truthy, allowedActions, h1]
      · by_cases h2 : s = "synchronize"
        · simp [validatePullRequestAction, truthy, allowedActions, h2]
        · by_cases h3 : s = "reopened"
          · simp [validatePullRequestAction, truthy, allowedActions, h3]
          · simp [validatePullRequestAction, truthy, allowedActions, h1, h2, h3]
  · intro c msg h
    unfold validatePullRequestAction at h
    by_cases hc : (!(truthy action) || !(allowedActions.contains (action.getD ""))) = true
    · rw [if_pos hc] at h
      cases h
      exact ⟨rfl, rfl⟩
    · rw [if_neg hc] at h
      cases h

/-- Witness for C6 at a concrete input. -/
theorem c6_action_gate_witness :
    validatePullRequestAction (some "opened") = ActionOutcome.proceed :=
  (c6_action_gate (some "opened")).1.mpr (Or.inl rfl)

/-- C7: `extractPRInfo` fails with the no-pull-request error when the payload
object is absent; fails with the single combined five-field message when any
of title, author login, base sha, head sha or URL is missing or not truthy;
and otherwise returns exactly those field values plus the PR number. -/
theorem c7_extract_pr_info :
    (extractPRInfo none = .error "No pull request found in context") ∧
    (∀ pr : PullRequestPayload,
      (truthy pr.title = false ∨ truthy (pr.user.bind PRUser.login) = false ∨
        truthy (pr.base.bind PRRef.sha) = false ∨
        truthy (pr.head.bind PRRef.sha) = false ∨
        truthy pr.html_url = false) →
      extractPRInfo (some pr) = .error requiredFieldsMsg) ∧
    (∀ (pr : PullRequestPayload) (t a bs hs u : String),
      pr.title = some t → t ≠ "" →
      pr.user.bind PRUser.login = some a → a ≠ "" →
      pr.base.bind PRRef.sha = some bs → bs ≠ "" →
      pr.head.bind PRRef.sha = some hs → hs ≠ "" →
      pr.html_url = some u → u ≠ "" →
      extractPRInfo (some pr) = .ok ⟨pr.number, t, a, bs, hs, u⟩) := by
  refine ⟨rfl, ?_, ?_⟩
  · intro pr h
    rcases h with h | h | h | h | h <;> simp [extractPRInfo, h]
  · intro pr t a bs hs u h1 h1' h2 h2' h3 h3' h4 h4' h5 h5'
    simp [extractPRInfo, h1, h2, h3, h4, h5, truthy, h1', h2', h3', h4', h5']

/-- Witness for C7: a fully populated payload extracts to the expected
`PRInfo`, and one with `head.sha` missing yields the combined message. -/
theorem c7_extract_pr_info_witness :
    extractPRInfo (some ⟨42, some "T", some ⟨some "au"⟩, some ⟨some "bs"⟩,
        some ⟨some "hs"⟩, some "u"⟩) = .ok ⟨42, "T", "au", "bs", "hs", "u"⟩ ∧
    extractPRInfo (some ⟨42, some "T", some ⟨some "au"⟩, some ⟨some "bs"⟩,
        some ⟨none⟩, some "u"⟩) = .error requiredFieldsMsg :=
  ⟨c7_extract_pr_info.2.2 _ "T" "au" "bs" "hs" "u" rfl (by decide) rfl (by decide)
      rfl (by decide) rfl (by decide) rfl (by decide),
    c7_extract_pr_info.2.1 _ (Or.inr (Or.inr (Or.inr (Or.inl (by decide)))))⟩

/-- C5 (amended): in the `getApiKeys` variant the explicit input wins over the
environment value, an environment value alone is used, and absence of both
fails with the credential-specific message; in the `getConfig` variant (the
one `main.ts` calls) only the explicit inputs are consulted — a missing input
fails with the credential-specific message no matter what the environment
holds. -/
theorem c5_credential_resolution :
    (∀ (i g : String) (ea eg : Option String), i ≠ "" → g ≠ "" →
      getApiKeys i g ea eg = .ok ⟨i, g⟩) ∧
    (∀ ea eg : String, ea ≠ "" → eg ≠ "" →
      getApiKeys "" "" (some ea) (some eg) = .ok ⟨ea, eg⟩) ∧
    (∀ (g : String) (eg : Option String),
      getApiKeys "" g none eg = .error anthropicMissingMsg) ∧
    (∀ (i : String) (ea : Option String), truthy (jsOrEnv i ea) = true →
      getApiKeys i "" ea none = .error githubMissingMsg) ∧
    (∀ (g ip : String) (ea eg : Option String),
      getConfig "" g ip ea eg = .error anthropicMissingMsg) ∧
    (∀ (i ip : String) (ea eg : Option String), i ≠ "" →
      getConfig i "" ip ea eg = .error githubMissingMsg) ∧
    (∀ (i g ip : String) (ea eg : Option String), i ≠ "" → g ≠ "" →
      getConfig i g ip ea eg = .ok ⟨i, g,
        ((ip.split (fun c => c = ',')).map String.trim).filter
          (fun p => p.length > 0)⟩) := by
  refine ⟨?_, ?_, ?_, ?_, ?_, ?_, ?_⟩
  · intro i g ea eg hi hg
    simp [getApiKeys, jsOrEnv, truthy, hi, hg]
  · intro ea eg hea heg
    simp [getApiKeys, jsOrEnv, truthy, hea, heg]
  · intro g eg
    simp [getApiKeys, jsOrEnv, truthy]
  · intro i ea h
    simp [getApiKeys, jsOrEnv, truthy] at h ⊢
    simp [h]
  · intro g ip ea eg
    simp [getConfig]
  · intro i ip ea eg hi
    simp [getConfig, hi]
  · intro i g ip ea eg hi hg
    simp [getConfig, hi, hg]

/-- Witness for C5 at concrete inputs: explicit input beats the environment
value, and an environment value alone is used. -/
theorem c5_credential_resolution_witness :
    getApiKeys "inp-key" "inp-tok" (some "env-key") (some "env-tok") =
      .ok ⟨"inp-key", "inp-tok"⟩ ∧
    getApiKeys "" "" (some "env-key") (some "env-tok") =
      .ok ⟨"env-key", "env-tok"⟩ :=
  ⟨c5_credential_resolution.1 "inp-key" "inp-tok" _ _ (by decide) (by decide),
    c5_credential_resolution.2.1 "env-key" "env-tok" (by decide) (by decide)⟩

/-- Counterexample for C5 as stated: in the `getConfig` variant an environment
value present while the explicit input is absent is NOT used — resolution
fails with the missing-credential error even though the environment variable
is set. -/
theorem c5_counterexample :
    getConfig "" "tok" "" (some "env-key") (some "env-tok") =
      .error anthropicMissingMsg := rfl

/-- Counterexample for C1 as stated: the code's split does not cut only at
lines beginning `diff --git a/` — a mid-line occurrence of `diff --git `
starts a new section, so the split differs from the spec-described
line-anchored split, and with pattern `f` the filter even removes text from
the middle of a line that the claim says is boundary-free. -/
theorem c1_counterexample :
    splitLA dgPat ("x diff --git a/f b/f".toList) ≠
      splitAtHeaderLineStarts dgaHeader ("x diff --git a/f b/f".toList) ∧
    (filterDiff litMatch ("x diff --git a/f b/f".toList) ["f"]).output =
      "x ".toList := by
  exact ⟨by decide, by decide⟩

/-- C1 (amended): with a non-empty pattern list the filter cuts the diff at
every occurrence of the substring `diff --git ` — at any position `> 0`,
mid-line included, with or without a following `a/` — and nowhere else: the
sections concatenate back to the diff, every section after the first begins
with `diff --git `, and no section contains a further occurrence after its
own start; text before the first occurrence forms its own leading section.
Sections blank after trimming are then discarded. -/
theorem c1_split_boundaries (d : List Char) :
    (splitLA dgPat d).flatten = d ∧
    (∀ sec ∈ (splitLA dgPat d).tail, dgPat <+: sec) ∧
    (∀ sec ∈ splitLA dgPat d, ∀ i, 0 < i → ¬ dgPat <+: sec.drop i) ∧
    fileSections d = (splitLA dgPat d).filter nonblank :=
  ⟨splitLA_flatten dgPat d, splitLA_tail_start dgPat dgPat_nso d,
    splitLA_no_internal dgPat dgPat_ne_nil d, rfl⟩

/-- Witness for C1 (amended) at a concrete diff. -/
theorem c1_split_boundaries_witness :
    (splitLA dgPat ("a\ndiff --git a/f b/f\n".toList)).flatten =
      "a\ndiff --git a/f b/f\n".toList :=
  (c1_split_boundaries ("a\ndiff --git a/f b/f\n".toList)).1

/-- Counterexample for C2 as stated: in `x diff --git a/f b/f` no line begins
with `diff --git a/`, so the whole text precedes the first header line, yet
with pattern `f` the filter returns only `x ` — the leading content does not
appear in the output. -/
theorem c2_counterexample :
    (filterDiff litMatch ("x diff --git a/f b/f".toList) ["f"]).output =
      "x ".toList ∧
    ¬ ("x diff --git a/f b/f".toList <:+:
      (filterDiff litMatch ("x diff --git a/f b/f".toList) ["f"]).output) := by
  exact ⟨by decide, by decide⟩

/-- C2 (amended): the content preceding the first occurrence of the substring
`diff --git ` is preserved verbatim as a prefix of the filter's output for
every pattern list and matcher, provided that content is not pure whitespace
(a whitespace-only leading section is discarded by the trim filter). -/
theorem c2_lead_preserved (m : List Char → String → Bool) (d : List Char)
    (P : List String) (h : nonblank (leadText dgPat d) = true) :
    leadText dgPat d <+: (filterDiff m d P).output := by
  by_cases hP : P = []
  · subst hP
    show leadText dgPat d <+: d
    unfold leadText
    cases hidx : firstIdxOf dgPat d with
    | none => exact List.prefix_refl d
    | some i => exact List.take_prefix _ _
  · rw [filterDiff_output m d hP, processSections_kept]
    cases hidx : firstIdxOf dgPat d with
    | none =>
      have hlead : leadText dgPat d = d := by simp [leadText, hidx]
      rw [hlead] at h ⊢
      have hd : d ≠ [] := by
        intro he
        rw [he] at h
        simp [nonblank] at h
      have hnoocc := firstIdxOf_none dgPat d hidx
      have hsplit : splitLA dgPat d = [d] :=
        splitLA_no_occ dgPat hd (fun i _ => hnoocc i)
      have hfs : fileSections d = [d] := by
        rw [fileSections, hsplit, List.filter_cons, if_pos h]
        rfl
      rw [hfs]
      have hks : keepSec m P d = true := by
        have hhd : ¬ (dgaHeader.isPrefixOf (firstLine d) = true) := by
          intro hcon
          have h1 : dgaHeader <+: firstLine d :=
            List.isPrefixOf_iff_prefix.mp hcon
          have h3 : firstLine d <+: d := List.takeWhile_prefix _
          exact hnoocc 0 ((dgPat_le_dgaHeader.trans h1).trans h3)
        simp [keepSec, hhd]
      rw [List.filter_cons, if_pos hks]
      simp
    | some i =>
      rcases Nat.eq_zero_or_pos i with rfl | hi
      · rw [leadText, hidx] at h
        simp [nonblank] at h
      · have hlead : leadText dgPat d = d.take i := by simp [leadText, hidx]
        obtain ⟨hocc, hbef⟩ := firstIdxOf_spec dgPat d i hidx
        have hcut := splitLA_head_cut dgPat dgPat_ne_nil hidx hi
        rw [hlead] at h ⊢
        have hfs : fileSections d =
            d.take i :: (splitLA dgPat (d.drop i)).filter nonblank := by
          rw [fileSections, hcut, List.filter_cons, if_pos h]
        rw [hfs]
        have hks : keepSec m P (d.take i) = true := by
          have hhd : ¬ (dgaHeader.isPrefixOf (firstLine (d.take i)) = true) := by
            intro hcon
            have h1 : dgaHeader <+: firstLine (d.take i) :=
              List.isPrefixOf_iff_prefix.mp hcon
            have h3 : firstLine (d.take i) <+: d.take i :=
              List.takeWhile_prefix _
            have h4 : d.take i <+: d := List.take_prefix _ _
            exact hbef 0 hi (((dgPat_le_dgaHeader.trans h1).trans h3).trans h4)
          simp [keepSec, hhd]
        rw [List.filter_cons, if_pos hks, List.flatten_cons]
        exact List.prefix_append _ _

/-- Witness for C2 (amended) at a concrete diff with leading free text. -/
theorem c2_lead_preserved_witness :
    nonblank (leadText dgPat ("hi\ndiff --git a/f b/f".toList)) = true ∧
    leadText dgPat ("hi\ndiff --git a/f b/f".toList) <+:
      (filterDiff litMatch ("hi\ndiff --git a/f b/f".toList) ["f"]).output :=
  ⟨by decide, c2_lead_preserved litMatch ("hi\ndiff --git a/f b/f".toList)
    ["f"] (by decide)⟩

/-- C8: a section whose first line begins `diff --git a/` but has no ` b/`
marker after that prefix is never kept — with a non-empty pattern list it is
dropped from the output (which is exactly the concatenation of the kept
sections) and a warning naming that exact header line is emitted. -/
theorem c8_malformed_dropped (m : List Char → String → Bool) (P : List String)
    (d sec : List Char) (hP : P ≠ []) (hmem : sec ∈ fileSections d)
    (hh : dgaHeader.isPrefixOf (firstLine sec) = true)
    (hn : firstIdxOf bMarker ((firstLine sec).drop dgaHeader.length) = none) :
    ("Could not parse diff header: " ++ String.mk (firstLine sec)) ∈
      (filterDiff m d P).warnings ∧
    sec ∉ (processSections m P (fileSections d)).kept ∧
    (filterDiff m d P).output =
      (processSections m P (fileSections d)).kept.flatten := by
  refine ⟨?_, ?_, filterDiff_output m d hP⟩
  · rw [filterDiff_warnings m d hP]
    exact processSections_warn_mem m P (fileSections d) sec hmem hh hn
  · rw [processSections_kept]
    intro hcon
    have hks := (List.mem_filter.mp hcon).2
    simp [keepSec, hh, hn] at hks

/-- Witness for C8 at the spec's concrete malformed header. -/
theorem c8_malformed_dropped_witness :
    ("Could not parse diff header: " ++ String.mk
        (firstLine ("diff --git a/file/path missing-b-section\n+x".toList))) ∈
      (filterDiff litMatch
        ("diff --git a/file/path missing-b-section\n+x".toList) ["zzz"]).warnings :=
  (c8_malformed_dropped litMatch ["zzz"]
    ("diff --git a/file/path missing-b-section\n+x".toList)
    ("diff --git a/file/path missing-b-section\n+x".toList)
    (by decide) (by decide) (by decide) (by decide)).1

/-- C10: the filter is idempotent — filtering an already-filtered diff with
the same pattern list returns it unchanged, for every matcher, diff and
pattern list. -/
theorem c10_filter_idempotent (m : List Char → String → Bool) (d : List Char)
    (P : List String) :
    (filterDiff m (filterDiff m d P).output P).output =
      (filterDiff m d P).output := by
  by_cases hP : P = []
  · subst hP
    rfl
  · rw [filterDiff_output m d hP, processSections_kept]
    have hkept2 : (fileSections d).filter (keepSec m P) =
        (splitLA dgPat d).filter (fun sec => keepSec m P sec && nonblank sec) := by
      rw [fileSections, List.filter_filter]
    have hall : ∀ c ∈ (fileSections d).filter (keepSec m P),
        nonblank c = true ∧ keepSec m P c = true := by
      intro c hc
      rw [hkept2] at hc
      have hq := (List.mem_filter.mp hc).2
      simp only [Bool.and_eq_true] at hq
      exact ⟨hq.2, hq.1⟩
    have hmem : ∀ c ∈ (fileSections d).filter (keepSec m P),
        c ∈ splitLA dgPat d := by
      intro c hc
      rw [hkept2] at hc
      exact (List.mem_filter.mp hc).1
    by_cases hk : (fileSections d).filter (keepSec m P) = []
    · rw [hk]
      simp only [List.flatten_nil]
      rw [filterDiff_output m [] hP]
      rfl
    · have hne : ∀ c ∈ (fileSections d).filter (keepSec m P), c ≠ [] := by
        intro c hc hnil
        have hnb := (hall c hc).1
        rw [hnil] at hnb
        simp [nonblank] at hnb
      have htail : ∀ c ∈ ((fileSections d).filter (keepSec m P)).tail,
          dgPat <+: c := by
        intro c hc
        rw [hkept2] at hc
        exact splitLA_tail_start dgPat dgPat_nso d c (tail_filter_mem _ _ c hc)
      have hnoint : ∀ c ∈ (fileSections d).filter (keepSec m P),
          ∀ i, 0 < i → ¬ dgPat <+: c.drop i := by
        intro c hc
        exact splitLA_no_internal dgPat dgPat_ne_nil d c (hmem c hc)
      have hcanon : splitLA dgPat ((fileSections d).filter (keepSec m P)).flatten =
          (fileSections d).filter (keepSec m P) :=
        splitLA_canonical dgPat dgPat_ne_nil dgPat_nso _ hk hne htail hnoint
      rw [filterDiff_output m _ hP, processSections_kept, fileSections, hcanon]
      rw [List.filter_eq_self.mpr (fun c hc => (hall c hc).1)]
      rw [List.filter_eq_self.mpr (fun c hc => (hall c hc).2)]

end PRDesc
